import Mathlib

set_option maxRecDepth 1000000

/-!
Shallow embedding of the UPS Australia recipient-name matching tool
(src/ups_matching_tool.py) and proofs about its normalization,
similarity-scoring and matching logic.

Strings are modelled as Lean strings; matching on raw bytes of the source:
uppercase conversion is ASCII (Char.toUpper), similarity ratios are exact
rationals (the Python code computes them as floats, but every decision in
the tool compares a ratio 2*M/T against a user threshold; we model the
values exactly).
-/

/-- Characters kept by the punctuation-removal step
`re.sub(r'[^A-Z0-9 ]', '', name)` (line 14 of the source): the uppercase
letters, the digits and the space. -/
def KEPT : List Char := " 0123456789ABCDEFGHIJKLMNOPQRSTUVWXYZ".toList

/-- Membership in the kept character class of line 14. -/
def isKept (c : Char) : Bool := decide (c ∈ KEPT)

/-- Stopword alternatives of the regex on line 15 of the source:
`\b(AUSTRALIA|AUST|PTY|P/L|LTD|LIMITED|CORPORATION|INC|PTE|CO|THE|AND|&)\b`.
The list is kept verbatim; note that "P/L" and "&" contain characters that
the punctuation-removal step of line 14 has already deleted, so they can
never match. -/
def STOPWORDS : List String :=
  ["AUSTRALIA", "AUST", "PTY", "P/L", "LTD", "LIMITED", "CORPORATION",
   "INC", "PTE", "CO", "THE", "AND", "&"]

/-- Stopwords as character lists. -/
def stopL : List (List Char) := STOPWORDS.map String.toList

/-- Maximal space-free runs of a character list, in order.  This models
Python `str.split()` and, on strings whose characters all lie in `KEPT`,
also identifies the places where the word-boundary regex `\b(...)\b` of
line 15 can match: after line 14 every character is a regex word character
(`A-Z0-9`) or a space, so `\b` holds exactly at the two ends of each
maximal space-free run, and the alternation (whose alternatives contain no
spaces) can only delete a whole run equal to one of the stopwords. -/
def wordsC : List Char → List (List Char)
  | [] => []
  | c :: cs =>
    if c = ' ' then wordsC cs
    else if cs.head? = some ' ' ∨ cs = [] then [c] :: wordsC cs
    else (c :: (wordsC cs).headI) :: (wordsC cs).tail

/-- Joining words with single spaces; models `re.sub(r'\s+', ' ', name).strip()`
(line 16 of the source) applied after whole-token deletions. -/
def joinW : List (List Char) → List Char
  | [] => []
  | [w] => w
  | w :: ws => w ++ ' ' :: joinW ws

/-- Tokens of the uppercased, punctuation-stripped input that survive the
stopword deletion of line 15. -/
def goodWords (l : List Char) : List (List Char) :=
  (wordsC ((l.map Char.toUpper).filter isKept)).filter
    (fun w => !(stopL.contains w))

/-- Core of `normalize_name` (lines 13-17 of the source): uppercase, drop
characters outside `[A-Z0-9 ]`, delete stopword tokens (word-boundary
aware, see `wordsC`), collapse whitespace and trim. -/
def normalizeL (l : List Char) : List Char := joinW (goodWords l)

/-- The function `normalize_name` of the source (lines 10-17) on an actual
string. -/
def normalize_name (s : String) : String := String.mk (normalizeL s.toList)

/-- The `pd.isna` branch of `normalize_name` (lines 11-12): a missing value
normalizes to the empty string. -/
def normalize_opt : Option String → String
  | none => ""
  | some s => normalize_name s

/-- Length of the common run of equal characters at the heads of two lists;
a matching block of `difflib.SequenceMatcher` starting at a given pair of
positions extends exactly this far. -/
def runLen : List Char → List Char → Nat
  | a :: as2, b :: bs => if a = b then runLen as2 bs + 1 else 0
  | _, _ => 0

/-- Longest matching block of `difflib.SequenceMatcher.find_longest_match`
on the whole ranges (no junk: the inputs here are far shorter than the 200
characters needed to trigger autojunk).  Among all longest blocks the one
with the smallest start in `a`, then the smallest start in `b`, is
returned, as documented for difflib.  Returns `(i, j, k)`:
`a[i:i+k] = b[j:j+k]` with `k` maximal. -/
def bestBlock (a b : List Char) : Nat × Nat × Nat :=
  (((List.range a.length).map (fun i =>
      (List.range b.length).map (fun j => (i, j, runLen (a.drop i) (b.drop j))))).flatten).foldl
    (fun best c => if best.2.2 < c.2.2 then c else best) (0, 0, 0)

/-- Total size of the matching blocks of `difflib.SequenceMatcher`
(`get_matching_blocks`): recursively take the longest block and recurse on
the parts to its left and to its right.  The first argument is fuel; each
recursive call strictly shortens the first list (the start index of a
nonempty block is below `a.length`), so fuel `a.length + 1` in `matchSum`
always suffices and the fuel never runs out. -/
def matchSumF : Nat → List Char → List Char → Nat
  | 0, _, _ => 0
  | fuel + 1, a, b =>
    let t := bestBlock a b
    if t.2.2 = 0 then 0
    else
      matchSumF fuel (a.take t.1) (b.take t.2.1) + t.2.2 +
        matchSumF fuel (a.drop (t.1 + t.2.2)) (b.drop (t.2.1 + t.2.2))

/-- Total matched characters `M` of `difflib.SequenceMatcher(None, a, b)`. -/
def matchSum (a b : List Char) : Nat := matchSumF (a.length + 1) a b

/-- Ratio of `difflib.SequenceMatcher(None, a, b).ratio()` (line 27 of the
source) as an exact rational: `2*M/T` where `T` is the total length, and 1
when both strings are empty (difflib's `_calculate_ratio` returns 1.0 when
`length` is 0). -/
def ratioQ (a b : List Char) : ℚ :=
  if a.length + b.length = 0 then 1
  else mkRat (2 * (matchSum a b : Int)) (a.length + b.length)

/-- Account-directory row: the `Customer Name` and `Account Number` columns
used by `match_recipient_to_account`. -/
structure Account where
  customerName : String
  accountNumber : String
deriving DecidableEq

/-- Result quadruple of `match_recipient_to_account` (account, similarity,
suggestions, comment).  The comment strings drop the emoji prefixes of the
source: "One strong match", "First-two-word match", "Multiple close
matches", "Treated as personal name", "No good match". -/
structure MatchResult where
  account : String
  score : ℚ
  suggestions : List String
  note : String
deriving DecidableEq

/-- The `company_indicators` list of line 51 of the source. -/
def COMPANY_INDICATORS : List String :=
  ["PTY", "LTD", "P/L", "LABS", "LABORATORIES", "CORPORATION", "INC", "CO"]

/-- Substring test: models the Python expression `needle in hay`. -/
def containsSub (needle hay : List Char) : Bool :=
  (List.range (hay.length + 1)).any (fun i => needle.isPrefixOf (hay.drop i))

/-- Personal-name heuristic of lines 52-53 of the source: the normalized
recipient has at most one whitespace-separated token, and no company
indicator occurs as a substring of the uppercased raw name. -/
def looksPersonal (recipientName : String) (normalizedRecipient : String) : Bool :=
  decide ((wordsC normalizedRecipient.toList).length ≤ 1) &&
  !(COMPANY_INDICATORS.any (fun ind =>
    containsSub ind.toList (recipientName.toList.map Char.toUpper)))

/-- Similarity column of lines 23-28 of the source: each account paired
with the ratio between the normalized recipient and its normalized
customer name, in directory order. -/
def scoredAccounts (recipientName : String) (accs : List Account) : List (Account × ℚ) :=
  accs.map (fun a =>
    (a, ratioQ (normalize_name recipientName).toList (normalize_name a.customerName).toList))

/-- Insertion into a list sorted by descending similarity. -/
def insertDesc (x : Account × ℚ) : List (Account × ℚ) → List (Account × ℚ)
  | [] => [x]
  | y :: ys => if y.2 ≤ x.2 then x :: y :: ys else y :: insertDesc x ys

/-- Sorting by descending similarity; models
`acc_df.sort_values(by='Similarity', ascending=False)` (line 30). -/
def sortDesc (l : List (Account × ℚ)) : List (Account × ℚ) := l.foldr insertDesc []

/-- Top three candidates (`sorted_matches.head(3)`, line 31). -/
def topMatches (recipientName : String) (accs : List Account) : List (Account × ℚ) :=
  (sortDesc (scoredAccounts recipientName accs)).take 3

/-- Candidates of the top three whose similarity meets the threshold
(`top_matches[top_matches['Similarity'] >= threshold]`, line 33). -/
def strongMatches (recipientName : String) (accs : List Account) (threshold : ℚ) :
    List (Account × ℚ) :=
  (topMatches recipientName accs).filter (fun x => decide (threshold ≤ x.2))

/-- The function `match_recipient_to_account` of the source (lines 20-56):
exactly one high-confidence candidate is accepted outright; with several,
the first whose leading two normalized words equal the recipient's is
taken, else the highest-scoring one with a warning; with none, the
personal-name heuristic yields Cash with empty suggestions, otherwise Cash
with the top-three suggestions. -/
def match_recipient_to_account (recipientName : String) (accs : List Account)
    (threshold : ℚ) : MatchResult :=
  match strongMatches recipientName accs threshold with
  | [x] =>
    ⟨x.1.accountNumber, x.2,
      (topMatches recipientName accs).map (fun y => y.1.customerName),
      "One strong match"⟩
  | x :: y :: rest =>
    match (x :: y :: rest).find? (fun z =>
        decide ((wordsC (normalize_name z.1.customerName).toList).take 2 =
          (wordsC (normalize_name recipientName).toList).take 2)) with
    | some z =>
      ⟨z.1.accountNumber, z.2,
        (topMatches recipientName accs).map (fun y => y.1.customerName),
        "First-two-word match"⟩
    | none =>
      ⟨x.1.accountNumber, x.2,
        (topMatches recipientName accs).map (fun y => y.1.customerName),
        "Multiple close matches"⟩
  | [] =>
    if looksPersonal recipientName (normalize_name recipientName) then
      ⟨"Cash", 0, [], "Treated as personal name"⟩
    else
      ⟨"Cash", 0,
        (topMatches recipientName accs).map (fun y => y.1.customerName),
        "No good match"⟩

/-- Shipment row: the columns read by the per-row loop (lines 75-86). -/
structure ShipRow where
  trackingNumber : String
  recipientCompanyName : String
deriving DecidableEq

/-- Output row assembled on lines 79-86 of the source.  The score is kept
exact (the source rounds it to three decimals purely for display). -/
structure OutRow where
  trackingNumber : String
  recipientCompanyName : String
  matchedAccount : String
  similarityScore : ℚ
  suggestions : List String
  matchNotes : String
deriving DecidableEq

/-- Column-validation and matching loop of lines 71-86 of the source: the
run proceeds only when the shipment table has a `Recipient Company Name`
column and the account table has a `Customer Name` column (line 71 checks
nothing else); otherwise an error is shown and no outcome is produced.
Column presence is modelled by the column-name lists. -/
def runTool (shipCols accCols : List String) (ships : List ShipRow)
    (accs : List Account) (threshold : ℚ) : Option (List OutRow) :=
  if ("Recipient Company Name" ∈ shipCols) ∧ ("Customer Name" ∈ accCols) then
    some (ships.map (fun r =>
      let m := match_recipient_to_account r.recipientCompanyName accs threshold
      ⟨r.trackingNumber, r.recipientCompanyName, m.account, m.score,
        m.suggestions, m.note⟩))
  else none

/-- Account dataframe state: its rows plus the two derived columns that
`match_recipient_to_account` writes into it (lines 23 and 26 of the
source assign `acc_df['Normalized Name']` and `acc_df['Similarity']`),
`none` while a column has not been created. -/
structure AccTable where
  rows : List Account
  normalizedCol : Option (List String)
  similarityCol : Option (List ℚ)
deriving DecidableEq

/-- One call of `match_recipient_to_account` viewed with its effect on the
account dataframe: it recomputes and stores the `Normalized Name` and
`Similarity` columns (lines 23 and 26) and returns the match result. -/
def matchStep (recipientName : String) (tbl : AccTable) (threshold : ℚ) :
    MatchResult × AccTable :=
  let norms := tbl.rows.map (fun a => normalize_name a.customerName)
  let sims := norms.map (fun x => ratioQ (normalize_name recipientName).toList x.toList)
  (match_recipient_to_account recipientName tbl.rows threshold,
   ⟨tbl.rows, some norms, some sims⟩)

/-- The per-shipment loop of lines 75-78 threading the account dataframe
through the calls; the third component counts how many times an account
customer name goes through `normalize_name` (one full pass over the
directory per call, line 23). -/
def runMatches : List String → AccTable → ℚ → List MatchResult × AccTable × Nat
  | [], tbl, _ => ([], tbl, 0)
  | r :: rs, tbl, threshold =>
    let step := matchStep r tbl threshold
    let rest := runMatches rs step.2 threshold
    (step.1 :: rest.1, rest.2.1, tbl.rows.length + rest.2.2)

/-- Helper predicate spelling out that the output has no leading space, no
trailing space and no two adjacent spaces. -/
def noTwoSpaces : List Char → Bool
  | a :: b :: l => !(decide (a = ' ') && decide (b = ' ')) && noTwoSpaces (b :: l)
  | _ => true

/-- Helper predicate identifying the two fallback outcomes of the source
(lines 54 and 56): assigned account literally `Cash`, score 0, and one of
the two fallback comments. -/
abbrev isCashOutcome (m : MatchResult) : Prop :=
  m.account = "Cash" ∧ m.score = 0 ∧
    (m.note = "Treated as personal name" ∨ m.note = "No good match")

/-! Lemmas about words, joining and normalization. -/

/-- Unfolding lemma for `wordsC` on a cons cell. -/
theorem wordsC_cons (c : Char) (cs : List Char) :
    wordsC (c :: cs) =
      if c = ' ' then wordsC cs
      else if cs.head? = some ' ' ∨ cs = [] then [c] :: wordsC cs
      else (c :: (wordsC cs).headI) :: (wordsC cs).tail := rfl

/-- Leading spaces do not contribute words. -/
theorem wordsC_cons_space (cs : List Char) : wordsC (' ' :: cs) = wordsC cs := by
  simp [wordsC]

/-- Splitting a word followed by a space (or end of input) off the front. -/
theorem wordsC_append_word :
    ∀ w : List Char, w ≠ [] → (∀ c ∈ w, c ≠ ' ') →
      ∀ r : List Char, (r = [] ∨ ∃ r2, r = ' ' :: r2) →
      wordsC (w ++ r) = w :: wordsC r := by
  intro w
  induction w with
  | nil => intro h; exact absurd rfl h
  | cons c w2 ih =>
    intro _ hsp r hr
    have hc : c ≠ ' ' := hsp c (by simp)
    cases w2 with
    | nil =>
      rcases hr with hre | ⟨r2, hre⟩ <;> subst hre <;> simp [wordsC_cons, hc]
    | cons d w3 =>
      have hd : d ≠ ' ' := hsp d (by simp)
      have ih2 := ih (by simp) (fun x hx => hsp x (List.mem_cons_of_mem _ hx)) r hr
      rw [List.cons_append, wordsC_cons, if_neg hc, if_neg (by simp [hd]), ih2]
      simp

/-- Every word produced by `wordsC` is a nonempty run of non-space
characters of the input. -/
theorem wordsC_sound : ∀ l : List Char, ∀ w ∈ wordsC l, w ≠ [] ∧ ∀ c ∈ w, c ∈ l ∧ c ≠ ' ' := by
  intro l
  induction l with
  | nil => simp [wordsC]
  | cons c cs ih =>
    intro w hw
    rw [wordsC_cons] at hw
    by_cases hc : c = ' '
    · rw [if_pos hc] at hw
      obtain ⟨h1, h2⟩ := ih w hw
      exact ⟨h1, fun x hx => ⟨List.mem_cons_of_mem _ (h2 x hx).1, (h2 x hx).2⟩⟩
    · rw [if_neg hc] at hw
      by_cases h2c : cs.head? = some ' ' ∨ cs = []
      · rw [if_pos h2c] at hw
        rcases List.mem_cons.mp hw with hw1 | hw2
        · subst hw1
          exact ⟨by simp, by simp [hc]⟩
        · obtain ⟨h1, h2⟩ := ih w hw2
          exact ⟨h1, fun x hx => ⟨List.mem_cons_of_mem _ (h2 x hx).1, (h2 x hx).2⟩⟩
      · rw [if_neg h2c] at hw
        rcases List.mem_cons.mp hw with hw1 | hw2
        · subst hw1
          refine ⟨by simp, ?_⟩
          intro x hx
          rcases List.mem_cons.mp hx with hx1 | hx2
          · subst hx1; exact ⟨by simp, hc⟩
          · rcases hcs : wordsC cs with _ | ⟨w0, ws0⟩
            · have hnil : ([] : List (List Char)).headI = ([] : List Char) := rfl
              rw [hcs, hnil] at hx2
              simp at hx2
            · rw [hcs] at hx2
              simp only [List.headI] at hx2
              obtain ⟨_, h2⟩ := ih w0 (by rw [hcs]; simp)
              exact ⟨List.mem_cons_of_mem _ (h2 x hx2).1, (h2 x hx2).2⟩
        · have hmem : w ∈ wordsC cs := List.mem_of_mem_tail hw2
          obtain ⟨h1, h2⟩ := ih w hmem
          exact ⟨h1, fun x hx => ⟨List.mem_cons_of_mem _ (h2 x hx).1, (h2 x hx).2⟩⟩

/-- Unfolding lemma for `joinW` with at least two words. -/
theorem joinW_cons_cons (w w2 : List Char) (ws : List (List Char)) :
    joinW (w :: w2 :: ws) = w ++ ' ' :: joinW (w2 :: ws) := rfl

/-- Characters of a join are spaces or characters of some word. -/
theorem mem_joinW : ∀ (ws : List (List Char)) (c : Char), c ∈ joinW ws →
    c = ' ' ∨ ∃ w ∈ ws, c ∈ w := by
  intro ws
  induction ws with
  | nil => intro c hc; simp [joinW] at hc
  | cons w ws ih =>
    intro c hc
    cases ws with
    | nil => exact Or.inr ⟨w, by simp, by simpa [joinW] using hc⟩
    | cons w2 ws2 =>
      rw [joinW_cons_cons] at hc
      rcases List.mem_append.mp hc with h | h
      · exact Or.inr ⟨w, by simp, h⟩
      · rcases List.mem_cons.mp h with h1 | h2
        · exact Or.inl h1
        · rcases ih c h2 with h3 | ⟨w3, hm, hc3⟩
          · exact Or.inl h3
          · exact Or.inr ⟨w3, List.mem_cons_of_mem _ hm, hc3⟩

/-- Splitting is a left inverse of joining on lists of nonempty space-free
words. -/
theorem wordsC_joinW : ∀ ws : List (List Char), (∀ w ∈ ws, w ≠ []) →
    (∀ w ∈ ws, ∀ c ∈ w, c ≠ ' ') → wordsC (joinW ws) = ws := by
  intro ws
  induction ws with
  | nil => intro _ _; simp [joinW, wordsC]
  | cons w ws ih =>
    intro h1 h2
    cases ws with
    | nil =>
      have h := wordsC_append_word w (h1 w (by simp)) (h2 w (by simp)) [] (Or.inl rfl)
      simpa [joinW, wordsC] using h
    | cons w2 ws2 =>
      rw [joinW_cons_cons,
        wordsC_append_word w (h1 w (by simp)) (h2 w (by simp))
          (' ' :: joinW (w2 :: ws2)) (Or.inr ⟨_, rfl⟩),
        wordsC_cons_space,
        ih (fun x hx => h1 x (List.mem_cons_of_mem _ hx))
          (fun x hx => h2 x (List.mem_cons_of_mem _ hx))]

/-- Joining a nonempty word list headed by a nonempty word is nonempty. -/
theorem joinW_ne_nil (w : List Char) (ws : List (List Char)) (hw : w ≠ []) :
    joinW (w :: ws) ≠ [] := by
  cases ws with
  | nil => simpa [joinW] using hw
  | cons w2 ws2 => rw [joinW_cons_cons]; simp [hw]

/-- Head of a join is the head of the first word. -/
theorem joinW_head? (w : List Char) (ws : List (List Char)) (hw : w ≠ []) :
    (joinW (w :: ws)).head? = w.head? := by
  cases ws with
  | nil => rfl
  | cons w2 ws2 =>
    rw [joinW_cons_cons, List.head?_append]
    cases w with
    | nil => exact absurd rfl hw
    | cons a w3 => simp

/-- Last character of a join of nonempty space-free words is not a space. -/
theorem joinW_getLast_ne_space : ∀ ws : List (List Char), (∀ w ∈ ws, w ≠ []) →
    (∀ w ∈ ws, ∀ c ∈ w, c ≠ ' ') → (joinW ws).getLast? ≠ some ' ' := by
  intro ws
  induction ws with
  | nil => intro _ _; simp [joinW]
  | cons w ws ih =>
    intro h1 h2
    cases ws with
    | nil =>
      intro hcon
      have hcon2 : w.getLast? = some ' ' := hcon
      exact h2 w (by simp) ' ' (List.mem_of_getLast?_eq_some hcon2) rfl
    | cons w2 ws2 =>
      rw [joinW_cons_cons, List.getLast?_append]
      have hne := joinW_ne_nil w2 ws2 (h1 w2 (by simp))
      have ihj := ih (fun x hx => h1 x (List.mem_cons_of_mem _ hx))
        (fun x hx => h2 x (List.mem_cons_of_mem _ hx))
      cases hJ : joinW (w2 :: ws2) with
      | nil => exact absurd hJ hne
      | cons a j2 =>
        rw [hJ] at ihj
        rw [List.getLast?_cons_cons]
        cases hY : (a :: j2).getLast? with
        | none => simp at hY
        | some y =>
          rw [hY] at ihj
          simpa [Option.or] using ihj

/-- Appending a space-free word preserves the no-two-spaces invariant. -/
theorem noTwoSpaces_append : ∀ w l : List Char, (∀ c ∈ w, c ≠ ' ') →
    noTwoSpaces l = true → noTwoSpaces (w ++ l) = true := by
  intro w
  induction w with
  | nil => intro l _ hl; simpa using hl
  | cons a w2 ih =>
    intro l hw hl
    have ha : a ≠ ' ' := hw a (by simp)
    have ih2 := ih l (fun c hc => hw c (List.mem_cons_of_mem _ hc)) hl
    cases w2 with
    | nil =>
      cases l with
      | nil => simp [noTwoSpaces]
      | cons b l2 => simpa [noTwoSpaces, ha] using hl
    | cons a2 w3 =>
      simpa [noTwoSpaces, ha] using ih2

/-- Joins of nonempty space-free words contain no two adjacent spaces. -/
theorem noTwoSpaces_joinW : ∀ ws : List (List Char), (∀ w ∈ ws, w ≠ []) →
    (∀ w ∈ ws, ∀ c ∈ w, c ≠ ' ') → noTwoSpaces (joinW ws) = true := by
  intro ws
  induction ws with
  | nil => intro _ _; simp [joinW, noTwoSpaces]
  | cons w ws ih =>
    intro h1 h2
    cases ws with
    | nil =>
      have h := noTwoSpaces_append w [] (h2 w (by simp)) (by simp [noTwoSpaces])
      simpa [joinW] using h
    | cons w2 ws2 =>
      rw [joinW_cons_cons]
      apply noTwoSpaces_append w _ (h2 w (by simp))
      have hj := joinW_head? w2 ws2 (h1 w2 (by simp))
      have ihj := ih (fun x hx => h1 x (List.mem_cons_of_mem _ hx))
        (fun x hx => h2 x (List.mem_cons_of_mem _ hx))
      cases hJ : joinW (w2 :: ws2) with
      | nil => simp [noTwoSpaces]
      | cons c0 j2 =>
        have hc0 : c0 ≠ ' ' := by
          rw [hJ] at hj
          cases w2 with
          | nil => exact absurd rfl (h1 _ (by simp))
          | cons b w2t =>
            simp only [List.head?_cons, Option.some.injEq] at hj
            rw [hj]
            exact h2 (b :: w2t) (by simp) b (by simp)
        rw [hJ] at ihj
        simp [noTwoSpaces, hc0, ihj]

/-- Kept characters are fixed by uppercasing (they are uppercase letters,
digits or the space). -/
theorem kept_toUpper (c : Char) (hc : isKept c = true) : c.toUpper = c := by
  have hm : c ∈ KEPT := of_decide_eq_true hc
  exact (by decide : ∀ x ∈ KEPT, x.toUpper = x) c hm

/-- Mapping a function that fixes every element of a list is the identity. -/
theorem mapIdOn : ∀ (l : List Char) (f : Char → Char), (∀ c ∈ l, f c = c) →
    l.map f = l := by
  intro l f
  induction l with
  | nil => intro _; simp
  | cons a l2 ih =>
    intro h
    simp [h a (by simp), ih (fun c hc => h c (List.mem_cons_of_mem _ hc))]

/-- Structure of the surviving tokens of `goodWords`. -/
theorem goodWords_sound (l : List Char) : ∀ w ∈ goodWords l,
    w ≠ [] ∧ (∀ c ∈ w, isKept c = true ∧ c ≠ ' ') ∧ stopL.contains w = false := by
  intro w hw
  have hw2 : w ∈ wordsC ((l.map Char.toUpper).filter isKept) := List.mem_of_mem_filter hw
  have hstop := List.of_mem_filter hw
  obtain ⟨h1, h2⟩ := wordsC_sound _ w hw2
  refine ⟨h1, fun c hc => ⟨List.of_mem_filter (h2 c hc).1, (h2 c hc).2⟩, by simpa using hstop⟩

/-- Every character of a normalized name is in the kept class. -/
theorem normalizeL_chars (l : List Char) : ∀ c ∈ normalizeL l, isKept c = true := by
  intro c hc
  rcases mem_joinW _ c hc with h | ⟨w, hw, hcw⟩
  · subst h; decide
  · exact ((goodWords_sound l w hw).2.1 c hcw).1

/-- Normalization is idempotent at the character-list level. -/
theorem normalizeL_idem (l : List Char) : normalizeL (normalizeL l) = normalizeL l := by
  have hmap : (normalizeL l).map Char.toUpper = normalizeL l :=
    mapIdOn _ _ (fun c hc => kept_toUpper c (normalizeL_chars l c hc))
  have hfilter : (normalizeL l).filter isKept = normalizeL l :=
    List.filter_eq_self.mpr (fun c hc => normalizeL_chars l c hc)
  have hwords : wordsC (normalizeL l) = goodWords l :=
    wordsC_joinW _ (fun w hw => (goodWords_sound l w hw).1)
      (fun w hw c hc => ((goodWords_sound l w hw).2.1 c hc).2)
  have hstop2 : (goodWords l).filter (fun w => !(stopL.contains w)) = goodWords l :=
    List.filter_eq_self.mpr (fun w hw => by
      simp only [(goodWords_sound l w hw).2.2, Bool.not_false])
  show joinW (goodWords (normalizeL l)) = normalizeL l
  unfold goodWords
  rw [hmap, hfilter, hwords, hstop2]
  rfl

/-- Normalized names have no leading space, no trailing space and no two
adjacent spaces. -/
theorem normalizeL_tidy (l : List Char) :
    (normalizeL l).head? ≠ some ' ' ∧ (normalizeL l).getLast? ≠ some ' ' ∧
    noTwoSpaces (normalizeL l) = true := by
  have h1 : ∀ w ∈ goodWords l, w ≠ [] := fun w hw => (goodWords_sound l w hw).1
  have h2 : ∀ w ∈ goodWords l, ∀ c ∈ w, c ≠ ' ' :=
    fun w hw c hc => ((goodWords_sound l w hw).2.1 c hc).2
  refine ⟨?_, joinW_getLast_ne_space _ h1 h2, noTwoSpaces_joinW _ h1 h2⟩
  show (joinW (goodWords l)).head? ≠ some ' '
  cases hG : goodWords l with
  | nil => simp [joinW]
  | cons w ws =>
    have hwne : w ≠ [] := h1 w (by rw [hG]; simp)
    rw [joinW_head? w ws hwne]
    cases w with
    | nil => exact absurd rfl hwne
    | cons a w2 =>
      have ha : a ≠ ' ' := h2 (a :: w2) (by rw [hG]; simp) a (by simp)
      simp [ha]

/-- Word-boundary-aware characterization of the stopword removal: on input
that is a join of nonempty space-free kept-character words, normalization
deletes exactly the words that are in the regex alternation list and keeps
every other word intact. -/
theorem normalizeL_whole_token (ws : List (List Char))
    (h1 : ∀ w ∈ ws, w ≠ []) (h2 : ∀ w ∈ ws, ∀ c ∈ w, isKept c = true ∧ c ≠ ' ') :
    normalizeL (joinW ws) = joinW (ws.filter (fun w => !(stopL.contains w))) := by
  have hmap : (joinW ws).map Char.toUpper = joinW ws :=
    mapIdOn _ _ (fun c hc => by
      rcases mem_joinW _ c hc with h | ⟨w, hw, hcw⟩
      · subst h; decide
      · exact kept_toUpper c ((h2 w hw c hcw).1))
  have hfil : (joinW ws).filter isKept = joinW ws :=
    List.filter_eq_self.mpr (fun c hc => by
      rcases mem_joinW _ c hc with h | ⟨w, hw, hcw⟩
      · subst h; decide
      · exact (h2 w hw c hcw).1)
  have hwords : wordsC (joinW ws) = ws :=
    wordsC_joinW ws h1 (fun w hw c hc => (h2 w hw c hc).2)
  show joinW (goodWords (joinW ws)) = _
  unfold goodWords
  rw [hmap, hfil, hwords]

/-! Lemmas about similarity scores and the matching function. -/

/-- Strings that are not empty have a nonempty character list. -/
theorem toList_ne_nil (s : String) (h : s ≠ "") : s.toList ≠ [] := by
  intro h2
  exact h (Eq.symm (String.ext (Eq.symm h2)))

/-- Matching anything against an empty first string finds no block. -/
theorem matchSum_nil_left (b : List Char) : matchSum [] b = 0 := rfl

/-- Two empty strings have ratio 1 (difflib returns 1.0 when the total
length is zero). -/
theorem ratioQ_nil_nil : ratioQ [] [] = 1 := rfl

/-- An empty first string against a nonempty second string has ratio 0. -/
theorem ratioQ_nil_left (b : List Char) (hb : b ≠ []) : ratioQ [] b = 0 := by
  unfold ratioQ
  have hlen : ([] : List Char).length + b.length ≠ 0 := by
    simp only [List.length_nil, Nat.zero_add]
    intro h
    exact hb (List.length_eq_zero.mp h)
  rw [if_neg hlen, matchSum_nil_left]
  simp [Rat.zero_mkRat]

/-- Membership through descending insertion. -/
theorem mem_insertDesc (x a : Account × ℚ) (l : List (Account × ℚ)) :
    x ∈ insertDesc a l ↔ x = a ∨ x ∈ l := by
  induction l with
  | nil => simp [insertDesc]
  | cons y ys ih =>
    by_cases h : y.2 ≤ a.2
    · simp [insertDesc, h]
    · simp [insertDesc, h, ih]
      tauto

/-- Membership through the descending sort. -/
theorem mem_sortDesc (x : Account × ℚ) : ∀ l : List (Account × ℚ),
    x ∈ sortDesc l ↔ x ∈ l := by
  intro l
  induction l with
  | nil => simp [sortDesc]
  | cons a l2 ih =>
    rw [show sortDesc (a :: l2) = insertDesc a (sortDesc l2) from rfl,
      mem_insertDesc, ih, List.mem_cons]

/-- Scored rows come from the account directory with the recipient ratio. -/
theorem mem_scoredAccounts (r : String) (accs : List Account) (x : Account × ℚ)
    (hx : x ∈ scoredAccounts r accs) :
    x.1 ∈ accs ∧
    x.2 = ratioQ (normalize_name r).toList (normalize_name x.1.customerName).toList := by
  unfold scoredAccounts at hx
  rcases List.mem_map.mp hx with ⟨a, ha, heq⟩
  rw [← heq]
  exact ⟨ha, rfl⟩

/-- Top candidates are scored rows. -/
theorem mem_topMatches (r : String) (accs : List Account) (x : Account × ℚ)
    (hx : x ∈ topMatches r accs) : x ∈ scoredAccounts r accs := by
  unfold topMatches at hx
  exact (mem_sortDesc x _).mp (List.take_subset 3 _ hx)

/-- Strong candidates are top candidates meeting the threshold. -/
theorem mem_strongMatches (r : String) (accs : List Account) (t : ℚ)
    (x : Account × ℚ) (hx : x ∈ strongMatches r accs t) :
    x ∈ topMatches r accs ∧ t ≤ x.2 := by
  unfold strongMatches at hx
  have h2 := List.of_mem_filter hx
  simp only [decide_eq_true_eq] at h2
  exact ⟨List.mem_of_mem_filter hx, h2⟩

/-- With no strong candidate, the result is one of the two Cash branches
of lines 50-56. -/
theorem cash_of_no_strong (r : String) (accs : List Account) (t : ℚ)
    (h : strongMatches r accs t = []) :
    match_recipient_to_account r accs t =
      if looksPersonal r (normalize_name r) then
        ⟨"Cash", 0, [], "Treated as personal name"⟩
      else
        ⟨"Cash", 0, (topMatches r accs).map (fun y => y.1.customerName),
          "No good match"⟩ := by
  unfold match_recipient_to_account
  rw [h]

/-- With at least one strong candidate, the result accepts some strong
candidate, reports its similarity as the score, lists the top-three
customer names, and carries one of the three acceptance comments. -/
theorem accept_spec (r : String) (accs : List Account) (t : ℚ)
    (h : strongMatches r accs t ≠ []) :
    ∃ x ∈ strongMatches r accs t,
      (match_recipient_to_account r accs t).account = x.1.accountNumber ∧
      (match_recipient_to_account r accs t).score = x.2 ∧
      (match_recipient_to_account r accs t).suggestions =
        (topMatches r accs).map (fun y => y.1.customerName) ∧
      ((match_recipient_to_account r accs t).note = "One strong match" ∨
       (match_recipient_to_account r accs t).note = "First-two-word match" ∨
       (match_recipient_to_account r accs t).note = "Multiple close matches") := by
  rcases hS : strongMatches r accs t with _ | ⟨x, rest⟩
  · exact absurd hS h
  cases rest with
  | nil =>
    have hred : match_recipient_to_account r accs t =
        ⟨x.1.accountNumber, x.2,
          (topMatches r accs).map (fun y => y.1.customerName),
          "One strong match"⟩ := by
      unfold match_recipient_to_account
      rw [hS]
    exact ⟨x, by simp, by rw [hred]; simp⟩
  | cons y rest2 =>
    have hred : match_recipient_to_account r accs t =
        match (x :: y :: rest2).find? (fun z =>
            decide ((wordsC (normalize_name z.1.customerName).toList).take 2 =
              (wordsC (normalize_name r).toList).take 2)) with
        | some z =>
          ⟨z.1.accountNumber, z.2,
            (topMatches r accs).map (fun y => y.1.customerName),
            "First-two-word match"⟩
        | none =>
          ⟨x.1.accountNumber, x.2,
            (topMatches r accs).map (fun y => y.1.customerName),
            "Multiple close matches"⟩ := by
      unfold match_recipient_to_account
      rw [hS]
    rcases hf : (x :: y :: rest2).find? (fun z =>
        decide ((wordsC (normalize_name z.1.customerName).toList).take 2 =
          (wordsC (normalize_name r).toList).take 2)) with _ | z
    · refine ⟨x, by simp, ?_⟩
      rw [hred, hf]
      simp
    · have hz : z ∈ x :: y :: rest2 := List.mem_of_find?_eq_some hf
      refine ⟨z, hz, ?_⟩
      rw [hred, hf]
      simp

/-! Claim theorems. -/

/-- Claim C8: normalization is idempotent, and for every input the
normalized result has no leading or trailing whitespace and no run of two
or more consecutive internal whitespace characters (its characters are all
in the kept class, so the only possible whitespace is the single space,
and the space never starts, ends, or doubles up in the result). -/
theorem C8_normalize_idempotent_tidy (s : String) :
    normalize_name (normalize_name s) = normalize_name s ∧
    (normalize_name s).toList.head? ≠ some ' ' ∧
    (normalize_name s).toList.getLast? ≠ some ' ' ∧
    noTwoSpaces (normalize_name s).toList = true ∧
    (∀ c ∈ (normalize_name s).toList, isKept c = true) := by
  have htl : (normalize_name s).toList = normalizeL s.toList := rfl
  refine ⟨?_, ?_, ?_, ?_, ?_⟩
  · show String.mk (normalizeL (normalize_name s).toList) = normalize_name s
    rw [htl, normalizeL_idem]
    rfl
  · rw [htl]; exact (normalizeL_tidy s.toList).1
  · rw [htl]; exact (normalizeL_tidy s.toList).2.1
  · rw [htl]; exact (normalizeL_tidy s.toList).2.2
  · rw [htl]; exact normalizeL_chars s.toList

/-- Claim C3 counterexample: the spec claims the stopword set includes
COMPANY, LLC, INCORPORATED and P/L, each removed as a standalone token.
In the source, COMPANY, LLC and INCORPORATED are not in the regex of line
15 and survive; P/L is in the regex but line 14 deletes the slash first,
so the token survives as PL. -/
theorem C3_cex :
    normalize_name "Smith Company" = "SMITH COMPANY" ∧
    normalize_name "Foo LLC" = "FOO LLC" ∧
    normalize_name "Bar Incorporated" = "BAR INCORPORATED" ∧
    normalize_name "Acme P/L" = "ACME PL" := by decide

/-- Claim C3 (amended): stopword removal is word-boundary aware and
removes exactly whole tokens belonging to the regex alternation list of
line 15 (effectively AUSTRALIA, AUST, PTY, LTD, LIMITED, CORPORATION,
INC, PTE, CO, THE and AND, since P/L and the ampersand cannot survive
punctuation removal): on a join of nonempty space-free kept-character
words, normalization keeps exactly the non-stopword words, so no stopword
is ever removed as a substring of a longer word (removing CO never
truncates COLES). -/
theorem C3_stopword_whole_token (ws : List (List Char))
    (h1 : ∀ w ∈ ws, w ≠ []) (h2 : ∀ w ∈ ws, ∀ c ∈ w, isKept c = true ∧ c ≠ ' ') :
    normalizeL (joinW ws) = joinW (ws.filter (fun w => !(stopL.contains w))) :=
  normalizeL_whole_token ws h1 h2

/-- Witness for C3: COLES CO keeps COLES intact while the token CO is
removed. -/
theorem C3_stopword_whole_token_witness :
    normalizeL (joinW ["COLES".toList, "CO".toList]) = "COLES".toList := by
  have h := C3_stopword_whole_token ["COLES".toList, "CO".toList]
    (by decide) (by decide)
  exact h.trans (by decide)

/-- Claim C4 counterexample: the spec claims both-empty similarity is
treated as zero, and an all-punctuation recipient is assigned Cash.  In
the source, difflib returns 1.0 when both normalized strings are empty,
so the recipient "..." is matched to the account "Pty Ltd" (which also
normalizes to the empty string) with the maximal score. -/
theorem C4_cex :
    match_recipient_to_account "..." [⟨"Pty Ltd", "999"⟩] (mkRat 4 5) =
      ⟨"999", 1, ["Pty Ltd"], "One strong match"⟩ := by decide

/-- Claim C4 (amended): both-empty similarity is 1, empty-against-nonempty
similarity is 0, and a recipient that normalizes to the empty string falls
through to a Cash outcome only when every account name normalizes to a
nonempty string (its rationale is then the personal-name comment or the
no-good-match comment, depending on the indicator substring test). -/
theorem C4_empty_similarity :
    ratioQ [] [] = 1 ∧
    (∀ b : List Char, b ≠ [] → ratioQ [] b = 0) ∧
    ∀ (accs : List Account) (t : ℚ) (r : String), 0 < t →
      normalize_name r = "" →
      (∀ a ∈ accs, normalize_name a.customerName ≠ "") →
      isCashOutcome (match_recipient_to_account r accs t) := by
  refine ⟨ratioQ_nil_nil, fun b hb => ratioQ_nil_left b hb, ?_⟩
  intro accs t r ht hr hacc
  have hzero : ∀ x ∈ topMatches r accs, x.2 = 0 := by
    intro x hx
    obtain ⟨hmem, hval⟩ := mem_scoredAccounts r accs x (mem_topMatches r accs x hx)
    rw [hval, hr]
    exact ratioQ_nil_left _ (toList_ne_nil _ (hacc x.1 hmem))
  have hS : strongMatches r accs t = [] := by
    unfold strongMatches
    rw [List.filter_eq_nil_iff]
    intro x hx
    simp only [decide_eq_true_eq]
    rw [hzero x hx]
    exact not_le.mpr ht
  rw [cash_of_no_strong r accs t hS]
  by_cases hp : looksPersonal r (normalize_name r) <;> simp [isCashOutcome, hp]

/-- Witness for C4: the all-punctuation recipient against a directory
whose only name normalizes to a nonempty string. -/
theorem C4_empty_similarity_witness :
    0 < mkRat 4 5 ∧ normalize_name "..." = "" ∧
    isCashOutcome (match_recipient_to_account "..." [⟨"Coles", "1"⟩] (mkRat 4 5)) :=
  ⟨by decide, by decide,
    C4_empty_similarity.2.2 [⟨"Coles", "1"⟩] (mkRat 4 5) "..."
      (by decide) (by decide) (by decide)⟩

/-- Claim C5 counterexample: the spec claims that when no candidate meets
the threshold a fallback pass with a partial/substring measure at a
relaxed threshold accepts, with rationale "partial fallback match".  Here
the normalized candidate ACME WIDGETS is a verbatim prefix of the
normalized recipient (any substring measure scores it 1, above the
relaxed threshold 0.7), yet the source returns Cash with the no-good-match
comment: no fallback pass exists anywhere in the code. -/
theorem C5_cex :
    match_recipient_to_account "Acme Widgets Warehouse" [⟨"ACME WIDGETS", "42"⟩]
      (mkRat 4 5) = ⟨"Cash", 0, ["ACME WIDGETS"], "No good match"⟩ := by decide

/-- Claim C5 (amended): whenever no candidate meets the threshold, no
fallback pass happens; the outcome is always Cash with score 0 and one of
the two fallback comments. -/
theorem C5_no_fallback (r : String) (accs : List Account) (t : ℚ)
    (h : strongMatches r accs t = []) :
    isCashOutcome (match_recipient_to_account r accs t) := by
  rw [cash_of_no_strong r accs t h]
  by_cases hp : looksPersonal r (normalize_name r) <;> simp [isCashOutcome, hp]

/-- Witness for C5 at the counterexample input. -/
theorem C5_no_fallback_witness :
    strongMatches "Acme Widgets Warehouse" [⟨"ACME WIDGETS", "42"⟩] (mkRat 4 5) = [] ∧
    isCashOutcome (match_recipient_to_account "Acme Widgets Warehouse"
      [⟨"ACME WIDGETS", "42"⟩] (mkRat 4 5)) :=
  ⟨by decide, C5_no_fallback _ _ _ (by decide)⟩

/-- Claim C1 counterexample: the spec claims every raw name with at most
two tokens and no organizational indicator token is short-circuited to
Cash with score 0 regardless of the directory.  In the source the
personal-name heuristic runs only after matching fails and requires at
most ONE token of the NORMALIZED name, so the two-token personal name
John Smith is matched to the identically named account instead. -/
theorem C1_cex :
    match_recipient_to_account "John Smith" [⟨"John Smith", "123"⟩] (mkRat 4 5) =
      ⟨"123", 1, ["John Smith"], "One strong match"⟩ := by decide

/-- Claim C1 (amended): the personal-name outcome (Cash, score 0, empty
suggestions, personal-name comment) is produced exactly when no top-three
candidate meets the threshold, the normalized recipient has at most one
token, and no company indicator of line 51 occurs as a substring of the
uppercased raw name. -/
theorem C1_personal_heuristic (r : String) (accs : List Account) (t : ℚ)
    (h1 : strongMatches r accs t = [])
    (h2 : (wordsC (normalize_name r).toList).length ≤ 1)
    (h3 : COMPANY_INDICATORS.any (fun ind =>
      containsSub ind.toList (r.toList.map Char.toUpper)) = false) :
    match_recipient_to_account r accs t =
      ⟨"Cash", 0, [], "Treated as personal name"⟩ := by
  have hp : looksPersonal r (normalize_name r) = true := by
    unfold looksPersonal
    rw [h3]
    simp
    exact h2
  rw [cash_of_no_strong r accs t h1, if_pos hp]

/-- Witness for C1: a single-token recipient against an empty directory. -/
theorem C1_personal_heuristic_witness :
    match_recipient_to_account "Zed" [] (mkRat 4 5) =
      ⟨"Cash", 0, [], "Treated as personal name"⟩ :=
  C1_personal_heuristic "Zed" [] (mkRat 4 5) (by decide) (by decide) (by decide)

/-- Claim C2 counterexample: the spec claims the primary similarity is
order-independent over word sets, so Smith Pharmacy Pty Ltd versus account
PHARMACY SMITH (identical word sets, token-set score 1, above the cutoff
0.8) is accepted with the single-strong-match rationale.  The source uses
the order-sensitive difflib sequence ratio, which scores this pair 4/7,
below 0.8, and returns Cash. -/
theorem C2_cex :
    match_recipient_to_account "Smith Pharmacy Pty Ltd" [⟨"PHARMACY SMITH", "555"⟩]
      (mkRat 4 5) = ⟨"Cash", 0, ["PHARMACY SMITH"], "No good match"⟩ := by decide

/-- Claim C2 (amended): the similarity measure is the order-sensitive
difflib sequence ratio; the scenario pair scores exactly 4/7, so the
reordered account is accepted (with the one-strong-match comment) only at
thresholds at most 4/7, for example 0.55. -/
theorem C2_sequence_ratio_match :
    ratioQ (normalize_name "Smith Pharmacy Pty Ltd").toList
        (normalize_name "PHARMACY SMITH").toList = mkRat 4 7 ∧
    match_recipient_to_account "Smith Pharmacy Pty Ltd" [⟨"PHARMACY SMITH", "555"⟩]
      (mkRat 11 20) = ⟨"555", mkRat 4 7, ["PHARMACY SMITH"], "One strong match"⟩ := by
  decide

/-- Claim C7: raising the threshold can only move an outcome toward Cash,
never the reverse: if the outcome at threshold t is a Cash fallback
outcome, then at any threshold at least t it still is (so no shipment
assigned Cash at a lower threshold becomes an accepted account match at a
higher one). -/
theorem C7_threshold_monotone (r : String) (accs : List Account) (t t2 : ℚ)
    (h : t ≤ t2) (hc : isCashOutcome (match_recipient_to_account r accs t)) :
    isCashOutcome (match_recipient_to_account r accs t2) := by
  have hS : strongMatches r accs t = [] := by
    by_contra hne
    obtain ⟨x, hx, _, _, _, hnote⟩ := accept_spec r accs t hne
    rcases hnote with h4 | h4 | h4 <;> rcases hc.2.2 with h5 | h5 <;>
      (rw [h4] at h5; exact absurd h5 (by decide))
  have hS2 : strongMatches r accs t2 = [] := by
    unfold strongMatches at hS ⊢
    rw [List.filter_eq_nil_iff] at hS ⊢
    intro x hx
    have h1 := hS x hx
    simp only [decide_eq_true_eq] at h1 ⊢
    intro h2
    exact h1 (le_trans h h2)
  rw [cash_of_no_strong r accs t2 hS2]
  by_cases hp : looksPersonal r (normalize_name r) <;> simp [isCashOutcome, hp]

/-- Witness for C7: an outcome that is Cash at threshold 0.5 stays Cash at
threshold 0.8. -/
theorem C7_threshold_monotone_witness :
    mkRat 1 2 ≤ mkRat 4 5 ∧
    isCashOutcome (match_recipient_to_account "Zq" [⟨"Bbbb", "7"⟩] (mkRat 4 5)) :=
  ⟨by decide, C7_threshold_monotone "Zq" [⟨"Bbbb", "7"⟩] (mkRat 1 2) (mkRat 4 5)
    (by decide) (by decide)⟩

/-- Claim C10: whenever the outcome assigns a real account (the account
field differs from Cash), the reported score meets the threshold and the
assigned account number is among the top-three candidates ranked by
descending similarity. -/
theorem C10_accept_invariant (r : String) (accs : List Account) (t : ℚ)
    (h : (match_recipient_to_account r accs t).account ≠ "Cash") :
    t ≤ (match_recipient_to_account r accs t).score ∧
    (match_recipient_to_account r accs t).account ∈
      (topMatches r accs).map (fun x => x.1.accountNumber) := by
  by_cases hS : strongMatches r accs t = []
  · exfalso
    apply h
    rw [cash_of_no_strong r accs t hS]
    by_cases hp : looksPersonal r (normalize_name r) <;> simp [hp]
  · obtain ⟨x, hx, hacc, hsc, _, _⟩ := accept_spec r accs t hS
    obtain ⟨htop, hle⟩ := mem_strongMatches r accs t x hx
    rw [hacc, hsc]
    exact ⟨hle, List.mem_map_of_mem _ htop⟩

/-- Witness for C10: an exact-match accept at threshold 0.8. -/
theorem C10_accept_invariant_witness :
    (match_recipient_to_account "Acme Widgets" [⟨"Acme Widgets", "9"⟩]
      (mkRat 4 5)).account ≠ "Cash" ∧
    mkRat 4 5 ≤ (match_recipient_to_account "Acme Widgets" [⟨"Acme Widgets", "9"⟩]
      (mkRat 4 5)).score :=
  ⟨by decide, (C10_accept_invariant "Acme Widgets" [⟨"Acme Widgets", "9"⟩]
    (mkRat 4 5) (by decide)).1⟩

/-- Claim C6 counterexample: the spec claims a run whose account dataset
lacks the Account Number column aborts before producing any MatchOutcome.
The column check of line 71 only tests Recipient Company Name and
Customer Name, so this run (account columns: Customer Name only) proceeds
and produces a full MatchOutcome. -/
theorem C6_cex :
    runTool ["Tracking Number", "Recipient Company Name"] ["Customer Name"]
      [⟨"1Z999", "Zq"⟩] [⟨"Bbbb", "77"⟩] (mkRat 4 5) =
      some [⟨"1Z999", "Zq", "Cash", 0, [], "Treated as personal name"⟩] := by decide

/-- Claim C6 (amended): the run aborts before matching exactly when the
shipment dataset lacks Recipient Company Name or the account dataset
lacks Customer Name; the Account Number column is not validated. -/
theorem C6_column_check (shipCols accCols : List String) (ships : List ShipRow)
    (accs : List Account) (t : ℚ) :
    runTool shipCols accCols ships accs t = none ↔
      ("Recipient Company Name" ∉ shipCols ∨ "Customer Name" ∉ accCols) := by
  unfold runTool
  by_cases h : ("Recipient Company Name" ∈ shipCols) ∧ ("Customer Name" ∈ accCols)
  · rw [if_pos h]
    simp [h.1, h.2]
  · rw [if_neg h]
    constructor
    · intro _
      exact not_and_or.mp h
    · intro _
      rfl

/-- Witness for C6: a run with no account columns at all aborts. -/
theorem C6_column_check_witness :
    runTool ["Recipient Company Name"] [] [] [] 1 = none :=
  (C6_column_check ["Recipient Company Name"] [] [] [] 1).mpr (by decide)

/-- Claim C9 counterexample: the spec claims no input record is mutated
and the directory is normalized exactly once per run.  Starting from an
account table with no derived columns, processing two shipments leaves
the Normalized Name column written into the table (mutation of the input
dataframe, line 23) and applies normalization to the one-account
directory twice, once per shipment, not once per run. -/
theorem C9_cex :
    (runMatches ["A", "B"] ⟨[⟨"ACME PTY LTD", "1"⟩], none, none⟩
      (mkRat 4 5)).2.1.normalizedCol = some ["ACME"] ∧
    (runMatches ["A", "B"] ⟨[⟨"ACME PTY LTD", "1"⟩], none, none⟩
      (mkRat 4 5)).2.2 = 2 := by decide

/-- Claim C9 (amended): the matching loop preserves the account rows but
writes the Normalized Name column into the account table on every call,
and normalizes every account name once per shipment, so a run over n
shipments applies normalization n times per account. -/
theorem C9_mutation_renormalization (rs : List String) (tbl : AccTable) (t : ℚ) :
    (runMatches rs tbl t).2.1.rows = tbl.rows ∧
    (runMatches rs tbl t).2.2 = rs.length * tbl.rows.length ∧
    (rs ≠ [] → (runMatches rs tbl t).2.1.normalizedCol =
      some (tbl.rows.map (fun a => normalize_name a.customerName))) := by
  induction rs generalizing tbl with
  | nil => simp [runMatches]
  | cons r rs2 ih =>
    obtain ⟨ih1, ih2, ih3⟩ := ih ((matchStep r tbl t).2)
    have hrows : (matchStep r tbl t).2.rows = tbl.rows := rfl
    refine ⟨?_, ?_, ?_⟩
    · show (runMatches rs2 (matchStep r tbl t).2 t).2.1.rows = tbl.rows
      rw [ih1, hrows]
    · show tbl.rows.length + (runMatches rs2 (matchStep r tbl t).2 t).2.2 =
        (r :: rs2).length * tbl.rows.length
      rw [ih2, hrows, List.length_cons]
      ring
    · intro _
      show (runMatches rs2 (matchStep r tbl t).2 t).2.1.normalizedCol = _
      cases rs2 with
      | nil =>
        show (matchStep r tbl t).2.normalizedCol = _
        rfl
      | cons r2 rs3 =>
        rw [ih3 (by simp), hrows]

/-- Witness for C9: one shipment against a one-account directory gives
one normalization pass and a written Normalized Name column. -/
theorem C9_mutation_renormalization_witness :
    (runMatches ["A"] ⟨[⟨"B Pty", "2"⟩], none, none⟩ 0).2.2 = 1 ∧
    (runMatches ["A"] ⟨[⟨"B Pty", "2"⟩], none, none⟩ 0).2.1.normalizedCol =
      some ["B"] := by
  refine ⟨?_, ?_⟩
  · exact (C9_mutation_renormalization ["A"] ⟨[⟨"B Pty", "2"⟩], none, none⟩ 0).2.1.trans
      (by decide)
  · exact ((C9_mutation_renormalization ["A"] ⟨[⟨"B Pty", "2"⟩], none, none⟩ 0).2.2
      (by decide)).trans (by decide)
